import Mathlib

/-!
# Verification of the `lattice` polynomial-ring engine against its specification

The repository's ring package ships only its test suite (`ring/ring_test.go`);
the implementation of the ring engine itself (Context, NTT, modular reduction,
scaler, samplers, prime generation) is not part of the sampled sources.  Those
components are therefore modelled here from the specification (each such
definition carries a doc comment starting with `Modelled from the spec:`),
while the serialization layer (`core/rlwe/keys.go`) and the polynomial
evaluator wrapper (`src/unnamed/part_000`) are embedded from their sources.

Conventions:
* a CRT limb with modulus `q` holds residues in `[0, q)`; we represent a
  reduced coefficient as an element of `ZMod q`;
* a polynomial is indexed `[limb][coefficient]`;
* machine integers (`uint64`) are modelled as `ℕ` with explicit `% 2^64`.
-/

namespace LatticeRing

/-! ## Per-limb NTT model

Modelled from the spec: the ring implementation is missing from the sampled
sources.  §4.4 of the spec describes `NTT`/`InvNTT` as the forward/inverse
number-theoretic transform of the negacyclic ring `Z_q[X]/(X^N+1)`, per CRT
limb, using a primitive `2N`-th root of unity `ψ` (which exists because every
limb modulus satisfies `q ≡ 1 (mod 2N)`).  The forward transform evaluates the
polynomial at the odd powers `ψ^(2i+1)` (the roots of `X^N + 1`); the inverse
transform interpolates back using the precomputed tables `ψ⁻¹` and `N⁻¹`
stored in the Context. -/

/-- Evaluation of the coefficient vector `a` (degree `< N`) at the point `t`. -/
def evalAt {q N : ℕ} (t : ZMod q) (a : Fin N → ZMod q) : ZMod q :=
  ∑ i, a i * t ^ i.val

/-- Modelled from the spec: forward NTT of one limb, i.e. evaluation at the
odd powers of the primitive `2N`-th root of unity `ψ`. -/
def nttL {q N : ℕ} (ψ : ZMod q) (a : Fin N → ZMod q) : Fin N → ZMod q :=
  fun i => evalAt (ψ ^ (2 * i.val + 1)) a

/-- Modelled from the spec: inverse NTT of one limb, interpolation using the
precomputed tables `ψInv = ψ⁻¹` and `nInv = N⁻¹`. -/
def invnttL {q N : ℕ} (ψInv nInv : ZMod q) (a : Fin N → ZMod q) : Fin N → ZMod q :=
  fun j => nInv * ψInv ^ j.val * ∑ i, a i * ψInv ^ (2 * i.val * j.val)

/-- Modelled from the spec: schoolbook negacyclic convolution of one limb,
the multiplication of `Z_q[X]/(X^N+1)` (`MulPolyNaive`'s per-limb core). -/
def negaConv {q N : ℕ} (a b : Fin N → ZMod q) : Fin N → ZMod q :=
  fun k => (∑ i : Fin N, ∑ j : Fin N, if i.val + j.val = k.val then a i * b j else 0)
         - (∑ i : Fin N, ∑ j : Fin N, if i.val + j.val = k.val + N then a i * b j else 0)

section LimbLemmas

variable {q N : ℕ}

/-- Summing `if m = k then f k else 0` over `k : Fin N` picks out `f m`
when `m < N`. -/
lemma sum_fin_pick (m : ℕ) (f : ℕ → ZMod q) :
    ∑ k : Fin N, (if m = k.val then f k.val else 0) =
      if m < N then f m else 0 := by
  by_cases h : m < N
  · rw [if_pos h, Finset.sum_eq_single (⟨m, h⟩ : Fin N)]
    · simp
    · intro k _ hk
      rw [if_neg]
      intro he
      exact hk (Fin.ext he.symm)
    · intro habs
      exact absurd (Finset.mem_univ _) habs
  · rw [if_neg h]
    apply Finset.sum_eq_zero
    intro k _
    rw [if_neg]
    intro he
    exact h (he ▸ k.isLt)

/-- Summing `if m = k + N then f k else 0` over `k : Fin N` picks out
`f (m - N)` when `N ≤ m < 2N`. -/
lemma sum_fin_pick_shifted (m : ℕ) (hm : m < 2 * N) (f : ℕ → ZMod q) :
    ∑ k : Fin N, (if m = k.val + N then f k.val else 0) =
      if N ≤ m then f (m - N) else 0 := by
  by_cases h : N ≤ m
  · rw [if_pos h, Finset.sum_eq_single (⟨m - N, by omega⟩ : Fin N)]
    · have hv : ((⟨m - N, by omega⟩ : Fin N) : ℕ) = m - N := rfl
      rw [hv, if_pos (by omega)]
    · intro k _ hk
      rw [if_neg]
      intro he
      exact hk (Fin.ext (by simp only [Fin.val_mk]; omega))
    · intro habs
      exact absurd (Finset.mem_univ _) habs
  · rw [if_neg h]
    apply Finset.sum_eq_zero
    intro k _
    rw [if_neg]
    omega

/-- Evaluation at any root `t` of `X^N + 1` is multiplicative with respect to
the negacyclic convolution: the per-limb homomorphism property behind
NTT-based multiplication. -/
lemma evalAt_negaConv (t : ZMod q) (ht : t ^ N = -1) (a b : Fin N → ZMod q) :
    evalAt t (negaConv a b) = evalAt t a * evalAt t b := by
  unfold evalAt negaConv
  rw [Finset.sum_mul_sum]
  calc
    ∑ k : Fin N,
        ((∑ i : Fin N, ∑ j : Fin N, if i.val + j.val = k.val then a i * b j else 0)
          - ∑ i : Fin N, ∑ j : Fin N, if i.val + j.val = k.val + N then a i * b j else 0)
          * t ^ k.val
      = ∑ k : Fin N, ∑ i : Fin N, ∑ j : Fin N,
          ((if i.val + j.val = k.val then a i * b j * t ^ k.val else 0)
            - if i.val + j.val = k.val + N then a i * b j * t ^ k.val else 0) := by
        apply Finset.sum_congr rfl
        intro k _
        rw [sub_mul, Finset.sum_mul, Finset.sum_mul, ← Finset.sum_sub_distrib]
        apply Finset.sum_congr rfl
        intro i _
        rw [Finset.sum_mul, Finset.sum_mul, ← Finset.sum_sub_distrib]
        apply Finset.sum_congr rfl
        intro j _
        rw [ite_mul, zero_mul, ite_mul, zero_mul]
    _ = ∑ i : Fin N, ∑ j : Fin N, ∑ k : Fin N,
          ((if i.val + j.val = k.val then a i * b j * t ^ k.val else 0)
            - if i.val + j.val = k.val + N then a i * b j * t ^ k.val else 0) := by
        rw [Finset.sum_comm]
        apply Finset.sum_congr rfl
        intro i _
        exact Finset.sum_comm
    _ = ∑ i : Fin N, ∑ j : Fin N, a i * b j * t ^ (i.val + j.val) := by
        apply Finset.sum_congr rfl
        intro i _
        apply Finset.sum_congr rfl
        intro j _
        rw [Finset.sum_sub_distrib,
          sum_fin_pick (i.val + j.val) (fun m => a i * b j * t ^ m),
          sum_fin_pick_shifted (i.val + j.val) (by omega) (fun m => a i * b j * t ^ m)]
        by_cases hij : i.val + j.val < N
        · rw [if_pos hij, if_neg (by omega), sub_zero]
        · rw [if_neg hij, if_pos (by omega), zero_sub]
          have hexp : t ^ (i.val + j.val) = t ^ (i.val + j.val - N) * t ^ N := by
            rw [← pow_add]
            congr 1
            omega
          rw [hexp, ht]
          ring
    _ = ∑ i : Fin N, ∑ j : Fin N, a i * t ^ i.val * (b j * t ^ j.val) := by
        apply Finset.sum_congr rfl
        intro i _
        apply Finset.sum_congr rfl
        intro j _
        rw [pow_add]
        ring

/-- Orthogonality half: in the field `ZMod q` the geometric sum of an `N`-th
root of unity `r ≠ 1` over `Fin N` vanishes. -/
lemma geom_fin_sum (hq : q.Prime) (r : ZMod q) (hrN : r ^ N = 1) (hr : r ≠ 1) :
    ∑ i : Fin N, r ^ i.val = 0 := by
  haveI : Fact q.Prime := ⟨hq⟩
  rw [Fin.sum_univ_eq_sum_range (fun k => r ^ k) N, geom_sum_eq hr, hrN, sub_self, zero_div]

/-- The inverse NTT undoes the forward NTT on every limb whose tables are
valid: `ψ` is a primitive `2N`-th root of unity mod the prime `q`, and
`ψInv`, `nInv` are the precomputed inverses of `ψ` and `N`. -/
lemma invnttL_nttL (hq : q.Prime) (ψ ψInv nInv : ZMod q)
    (hψ2N : ψ ^ (2 * N) = 1)
    (hprim : ∀ d, d < 2 * N → 0 < d → ψ ^ d ≠ 1)
    (hψψ : ψ * ψInv = 1)
    (hNInv : (N : ZMod q) * nInv = 1)
    (a : Fin N → ZMod q) (j : Fin N) :
    invnttL ψInv nInv (nttL ψ a) j = a j := by
  haveI : Fact q.Prime := ⟨hq⟩
  have hψInv2N : ψInv ^ (2 * N) = 1 := by
    have h0 : ψ ^ (2 * N) * ψInv ^ (2 * N) = 1 := by
      rw [← mul_pow, hψψ, one_pow]
    rwa [hψ2N, one_mul] at h0
  have hcancel : ∀ s u : ℕ, s < u → ψ ^ s = ψ ^ u → ψ ^ (u - s) = 1 := by
    intro s u hsu he
    have hInvs : ψ ^ s * ψInv ^ s = 1 := by
      rw [← mul_pow, hψψ, one_pow]
    calc
      ψ ^ (u - s) = ψ ^ (u - s) * (ψ ^ s * ψInv ^ s) := by rw [hInvs, mul_one]
      _ = (ψ ^ (u - s) * ψ ^ s) * ψInv ^ s := by ring
      _ = ψ ^ u * ψInv ^ s := by
          rw [← pow_add]
          congr 2
          omega
      _ = ψ ^ s * ψInv ^ s := by rw [he]
      _ = 1 := hInvs
  have hsum : ∀ m : Fin N, ∑ i : Fin N, (ψ ^ (2 * m.val) * ψInv ^ (2 * j.val)) ^ i.val
      = if m = j then (N : ZMod q) else 0 := by
    intro m
    by_cases hmj : m = j
    · subst hmj
      rw [if_pos rfl]
      have hr1 : ψ ^ (2 * m.val) * ψInv ^ (2 * m.val) = 1 := by
        rw [← mul_pow, hψψ, one_pow]
      rw [Finset.sum_congr rfl (fun i _ => by rw [hr1, one_pow])]
      rw [Finset.sum_const, Finset.card_univ, Fintype.card_fin, nsmul_eq_mul, mul_one]
    · rw [if_neg hmj]
      apply geom_fin_sum hq
      · have hA : (ψ ^ (2 * m.val)) ^ N = 1 := by
          rw [← pow_mul]
          have e : 2 * m.val * N = 2 * N * m.val := by ring
          rw [e, pow_mul, hψ2N, one_pow]
        have hB : (ψInv ^ (2 * j.val)) ^ N = 1 := by
          rw [← pow_mul]
          have e : 2 * j.val * N = 2 * N * j.val := by ring
          rw [e, pow_mul, hψInv2N, one_pow]
        rw [mul_pow, hA, hB, one_mul]
      · intro hr1
        have h3 : ψInv ^ (2 * j.val) * ψ ^ (2 * j.val) = 1 := by
          rw [← mul_pow, mul_comm ψInv ψ, hψψ, one_pow]
        have h2 : ψ ^ (2 * m.val) = ψ ^ (2 * j.val) := by
          calc
            ψ ^ (2 * m.val)
              = ψ ^ (2 * m.val) * (ψInv ^ (2 * j.val) * ψ ^ (2 * j.val)) := by
                rw [h3, mul_one]
            _ = (ψ ^ (2 * m.val) * ψInv ^ (2 * j.val)) * ψ ^ (2 * j.val) := by ring
            _ = ψ ^ (2 * j.val) := by rw [hr1, one_mul]
        have hmlt := m.isLt
        have hjlt := j.isLt
        rcases lt_trichotomy m.val j.val with hlt | heq | hgt
        · have := hcancel (2 * m.val) (2 * j.val) (by omega) h2
          exact hprim (2 * j.val - 2 * m.val) (by omega) (by omega) this
        · exact hmj (Fin.ext heq)
        · have := hcancel (2 * j.val) (2 * m.val) (by omega) h2.symm
          exact hprim (2 * m.val - 2 * j.val) (by omega) (by omega) this
  show nInv * ψInv ^ j.val *
      ∑ i : Fin N, (∑ m : Fin N, a m * (ψ ^ (2 * i.val + 1)) ^ m.val)
        * ψInv ^ (2 * i.val * j.val) = a j
  have hterm : ∀ i m : Fin N,
      a m * (ψ ^ (2 * i.val + 1)) ^ m.val * ψInv ^ (2 * i.val * j.val)
      = a m * ψ ^ m.val * (ψ ^ (2 * m.val) * ψInv ^ (2 * j.val)) ^ i.val := by
    intro i m
    have e1 : (ψ ^ (2 * i.val + 1)) ^ m.val = ψ ^ m.val * (ψ ^ (2 * m.val)) ^ i.val := by
      rw [← pow_mul, ← pow_mul, ← pow_add]
      congr 1
      ring
    have e2 : ψInv ^ (2 * i.val * j.val) = (ψInv ^ (2 * j.val)) ^ i.val := by
      rw [← pow_mul]
      congr 1
      ring
    rw [e1, e2, mul_pow]
    ring
  calc
    nInv * ψInv ^ j.val *
        ∑ i : Fin N, (∑ m : Fin N, a m * (ψ ^ (2 * i.val + 1)) ^ m.val)
          * ψInv ^ (2 * i.val * j.val)
      = nInv * ψInv ^ j.val *
          ∑ m : Fin N, (a m * ψ ^ m.val)
            * ∑ i : Fin N, (ψ ^ (2 * m.val) * ψInv ^ (2 * j.val)) ^ i.val := by
        congr 1
        calc
          ∑ i : Fin N, (∑ m : Fin N, a m * (ψ ^ (2 * i.val + 1)) ^ m.val)
              * ψInv ^ (2 * i.val * j.val)
            = ∑ i : Fin N, ∑ m : Fin N,
                a m * ψ ^ m.val * (ψ ^ (2 * m.val) * ψInv ^ (2 * j.val)) ^ i.val := by
              apply Finset.sum_congr rfl
              intro i _
              rw [Finset.sum_mul]
              exact Finset.sum_congr rfl (fun m _ => hterm i m)
          _ = ∑ m : Fin N, ∑ i : Fin N,
                a m * ψ ^ m.val * (ψ ^ (2 * m.val) * ψInv ^ (2 * j.val)) ^ i.val :=
              Finset.sum_comm
          _ = ∑ m : Fin N, (a m * ψ ^ m.val)
                * ∑ i : Fin N, (ψ ^ (2 * m.val) * ψInv ^ (2 * j.val)) ^ i.val :=
              Finset.sum_congr rfl (fun m _ => (Finset.mul_sum _ _ _).symm)
    _ = nInv * ψInv ^ j.val * (a j * ψ ^ j.val * (N : ZMod q)) := by
        congr 1
        rw [Finset.sum_congr rfl (fun m _ => by rw [hsum m])]
        simp only [mul_ite, mul_zero]
        rw [Finset.sum_ite_eq' Finset.univ j (fun m => a m * ψ ^ m.val * (N : ZMod q))]
        rw [if_pos (Finset.mem_univ j)]
    _ = a j := by
        have h6 : ψ ^ j.val * ψInv ^ j.val = 1 := by
          rw [← mul_pow, hψψ, one_pow]
        calc
          nInv * ψInv ^ j.val * (a j * ψ ^ j.val * (N : ZMod q))
            = a j * ((N : ZMod q) * nInv) * (ψ ^ j.val * ψInv ^ j.val) := by ring
          _ = a j := by rw [hNInv, h6, mul_one, mul_one]

/-- A primitive `2N`-th root of unity satisfies `ψ^N = -1` (mod the odd
prime `q`). -/
lemma psi_pow_N (hq : q.Prime) (ψ : ZMod q)
    (hψ2N : ψ ^ (2 * N) = 1)
    (hprim : ∀ d, d < 2 * N → 0 < d → ψ ^ d ≠ 1)
    (hN : 0 < N) :
    ψ ^ N = -1 := by
  haveI : Fact q.Prime := ⟨hq⟩
  have hsq : ψ ^ N * ψ ^ N = 1 := by
    rw [← pow_add]
    have e : N + N = 2 * N := by ring
    rw [e, hψ2N]
  rcases mul_self_eq_one_iff.mp hsq with h1 | h1
  · exact absurd h1 (hprim N (by omega) hN)
  · exact h1

end LimbLemmas

/-! ## Context and RNS polynomials -/

/-- Modelled from the spec: the ring `Context` (§3, §4.3).  It holds the ring
degree `N`, the ordered CRT modulus list (`Modulus`, one entry per limb), and
the per-limb NTT tables: the primitive `2N`-th root of unity `psi`, its
precomputed inverse `psiInv`, and the precomputed inverse `nInv` of `N`. -/
structure Context where
  N : ℕ
  L : ℕ
  Modulus : Fin L → ℕ
  psi : (l : Fin L) → ZMod (Modulus l)
  psiInv : (l : Fin L) → ZMod (Modulus l)
  nInv : (l : Fin L) → ZMod (Modulus l)

/-- The spec's Context invariants (§3): every limb modulus is prime and
congruent to `1 (mod 2N)`, `psi` is a primitive `2N`-th root of unity for its
limb, and the precomputed tables really invert `psi` and `N`. -/
def Context.Valid (c : Context) : Prop :=
  ∀ l : Fin c.L,
    (c.Modulus l).Prime ∧
    c.Modulus l % (2 * c.N) = 1 ∧
    c.psi l ^ (2 * c.N) = 1 ∧
    (∀ d, d < 2 * c.N → 0 < d → c.psi l ^ d ≠ 1) ∧
    c.psi l * c.psiInv l = 1 ∧
    (c.N : ZMod (c.Modulus l)) * c.nInv l = 1

/-- RNS polynomial over a Context: one reduced coefficient vector per limb,
indexed `[limb][coefficient]` as in the source's `Poly.Coeffs`. -/
def Poly (c : Context) : Type :=
  (l : Fin c.L) → Fin c.N → ZMod (c.Modulus l)

/-- Modelled from the spec: forward NTT, applied independently per limb. -/
def Context.NTT (c : Context) (p : Poly c) : Poly c :=
  fun l => nttL (c.psi l) (p l)

/-- Modelled from the spec: inverse NTT, applied independently per limb. -/
def Context.InvNTT (c : Context) (p : Poly c) : Poly c :=
  fun l => invnttL (c.psiInv l) (c.nInv l) (p l)

/-- Modelled from the spec (§4.5): `MulPoly` is NTT, pointwise multiply with
modular reduction, then InvNTT. -/
def Context.MulPoly (c : Context) (p1 p2 : Poly c) : Poly c :=
  c.InvNTT (fun l i => c.NTT p1 l i * c.NTT p2 l i)

/-- Modelled from the spec (§4.5): `MulPolyNaive` is the naive negacyclic
convolution, applied independently per limb. -/
def Context.MulPolyNaive (c : Context) (p1 p2 : Poly c) : Poly c :=
  fun l => negaConv (p1 l) (p2 l)

/-- Modelled from the test's asserted behaviour (`ring_test.go:373`, the only
code of `Shift` in the sampled sources): the cyclic rotation satisfies
`out[i] = in[(i+k) mod N]` on every limb. -/
def Context.Shift (c : Context) (p : Poly c) (k : ℕ) : Poly c :=
  fun l i => p l ⟨(i.val + k) % c.N, Nat.mod_lt _ i.pos⟩

/-- A valid Context with at least one limb has a positive ring degree
(otherwise `q % (2N) = q` could not be `1` for a prime `q`). -/
lemma Context.Valid.n_pos {c : Context} (hc : c.Valid) (l : Fin c.L) : 0 < c.N := by
  obtain ⟨hq, hmod, -, -, -, -⟩ := hc l
  by_contra h
  have hN0 : c.N = 0 := by omega
  rw [hN0, Nat.mul_zero, Nat.mod_zero] at hmod
  exact hq.one_lt.ne' hmod

/-- C1: over a valid Context the NTT-based `MulPoly` agrees with the naive
negacyclic convolution `MulPolyNaive` on every limb and coefficient, for all
pairs of (reduced) polynomials. -/
theorem MulPoly_eq_MulPolyNaive (c : Context) (hc : c.Valid) (p1 p2 : Poly c)
    (l : Fin c.L) (i : Fin c.N) :
    c.MulPoly p1 p2 l i = c.MulPolyNaive p1 p2 l i := by
  obtain ⟨hq, hmod, hψ2N, hprim, hψψ, hNInv⟩ := hc l
  have hN : 0 < c.N := hc.n_pos l
  have hψN := psi_pow_N hq (c.psi l) hψ2N hprim hN
  have hhom : (fun i' => c.NTT p1 l i' * c.NTT p2 l i')
      = nttL (c.psi l) (negaConv (p1 l) (p2 l)) := by
    funext i'
    show nttL (c.psi l) (p1 l) i' * nttL (c.psi l) (p2 l) i' = _
    unfold nttL
    have ht : (c.psi l ^ (2 * i'.val + 1)) ^ c.N = -1 := by
      rw [← pow_mul]
      have e : (2 * i'.val + 1) * c.N = c.N * (2 * i'.val + 1) := by ring
      rw [e, pow_mul, hψN]
      exact Odd.neg_one_pow ⟨i'.val, by ring⟩
    rw [evalAt_negaConv _ ht (p1 l) (p2 l)]
  calc
    c.MulPoly p1 p2 l i
      = invnttL (c.psiInv l) (c.nInv l) (fun i' => c.NTT p1 l i' * c.NTT p2 l i') i := rfl
    _ = invnttL (c.psiInv l) (c.nInv l) (nttL (c.psi l) (negaConv (p1 l) (p2 l))) i := by
        rw [hhom]
    _ = negaConv (p1 l) (p2 l) i :=
        invnttL_nttL hq _ _ _ hψ2N hprim hψψ hNInv _ i

/-- Concrete valid Context used by the witnesses: `N = 2`, one limb `q = 5`,
`ψ = 2` (a primitive 4th root of unity mod 5), `ψ⁻¹ = 3`, `N⁻¹ = 3`. -/
def ctxW : Context where
  N := 2
  L := 1
  Modulus := fun _ => 5
  psi := fun _ => 2
  psiInv := fun _ => 3
  nInv := fun _ => 3

/-- Concrete polynomial (coefficients 1, 2) over `ctxW`. -/
def p1W : Poly ctxW := fun l i => ((i.val + 1 : ℕ) : ZMod (ctxW.Modulus l))

/-- Concrete polynomial (coefficients 3, 4) over `ctxW`. -/
def p2W : Poly ctxW := fun l i => ((i.val + 3 : ℕ) : ZMod (ctxW.Modulus l))

/-- Witness for C1 at a concrete valid Context and concrete polynomials. -/
theorem MulPoly_eq_MulPolyNaive_witness :
    ctxW.MulPoly p1W p2W ⟨0, by decide⟩ ⟨0, by decide⟩
      = ctxW.MulPolyNaive p1W p2W ⟨0, by decide⟩ ⟨0, by decide⟩ :=
  MulPoly_eq_MulPolyNaive ctxW (by unfold Context.Valid; decide) p1W p2W _ _

/-- Concrete valid Context of degree 4: one limb `q = 17 ≡ 1 (mod 8)`,
`ψ = 2` (a primitive 8th root of unity mod 17, since `2^4 = 16 = -1`),
`ψ⁻¹ = 9`, `N⁻¹ = 4⁻¹ = 13`. -/
def ctxS : Context where
  N := 4
  L := 1
  Modulus := fun _ => 17
  psi := fun _ => 2
  psiInv := fun _ => 9
  nInv := fun _ => 13

/-- Concrete polynomial (coefficients 0, 1, 2, 3) over `ctxS`. -/
def pS : Poly ctxS := fun l i => ((i.val : ℕ) : ZMod (ctxS.Modulus l))

/-- C3 counterexample: `ctxS` is a valid Context, and with `N = 4`, `k = 1`
and input coefficients `0,1,2,3`, the shifted output has
`out[0] = in[1] = 1`, not `in[(0-1) mod 4] = in[3] = 3` as the claim's
formula `out[i] = in[(i-k) mod N]` demands (the test `ring_test.go:373`
asserts `out[j] = in[(j+1) mod N]`). -/
theorem Shift_claim_counterexample :
    ctxS.Valid ∧
      ctxS.Shift pS 1 ⟨0, by decide⟩ ⟨0, by decide⟩ ≠ pS ⟨0, by decide⟩ ⟨3, by decide⟩ :=
  ⟨by unfold Context.Valid; decide, by decide⟩

/-- C3 (amended): `Shift(in, k, out)` performs the cyclic rotation
`out[i] = in[(i+k) mod N]` within each limb, for every limb and index. -/
theorem Shift_spec (c : Context) (p : Poly c) (k : ℕ) (l : Fin c.L) (i : Fin c.N) :
    c.Shift p k l i = p l ⟨(i.val + k) % c.N, Nat.mod_lt _ i.pos⟩ := rfl

/-! ## Montgomery arithmetic (uint64 model)

Modelled from the spec (§4.1): the modular-reduction primitives are not in the
sampled sources.  `uint64` values are `ℕ` with the word size `R = 2^64`
explicit.  `qInv` is the precomputed Montgomery constant, characterised by
`q * qInv ≡ -1 (mod 2^64)`. -/

/-- Montgomery reduction (REDC): maps `a < q·2^64` to `a·2⁻⁶⁴ mod q`; the
quotient `(a + m·q)/2^64` (with `m = a·qInv mod 2^64`) lands below `2q` and is
conditionally corrected by one subtraction. -/
def redc (a q qInv : ℕ) : ℕ :=
  if q ≤ (a + a % 2 ^ 64 * qInv % 2 ^ 64 * q) / 2 ^ 64
  then (a + a % 2 ^ 64 * qInv % 2 ^ 64 * q) / 2 ^ 64 - q
  else (a + a % 2 ^ 64 * qInv % 2 ^ 64 * q) / 2 ^ 64

/-- Modelled from the spec: `MRed(x, y, q, qInv)` computes `x·y/R mod q`
by Montgomery-reducing the double-width product. -/
def MRed (x y q qInv : ℕ) : ℕ := redc (x * y) q qInv

/-- Modelled from the spec: `MForm(a, q, bred)` returns `a·2^64 mod q`
(the spec specifies the Barrett reduction used for this internally is exact,
so the Barrett constant `bred` does not influence the result). -/
def MForm (a q : ℕ) (bred : ℕ) : ℕ := a * 2 ^ 64 % q

/-- Modelled from the spec: `InvMForm(a, q, qInv)` maps back out of Montgomery
form by Montgomery-reducing the single-width value. -/
def InvMForm (a q qInv : ℕ) : ℕ := redc a q qInv

/-- Correctness of Montgomery reduction: for valid `(q, qInv)` and
`a < q·2^64`, `redc a q qInv` is reduced and satisfies
`redc a q qInv · 2^64 ≡ a (mod q)`. -/
lemma redc_spec (a q qInv : ℕ) (hq : 0 < q) (hqR : q < 2 ^ 64)
    (hinv : q * qInv % 2 ^ 64 = 2 ^ 64 - 1) (ha : a < q * 2 ^ 64) :
    redc a q qInv < q ∧ redc a q qInv * 2 ^ 64 ≡ a [MOD q] := by
  have hRpos : 0 < 2 ^ 64 := pow_pos (by norm_num) 64
  set m := a % 2 ^ 64 * qInv % 2 ^ 64 with hm_def
  have hm : m < 2 ^ 64 := Nat.mod_lt _ hRpos
  have hdvd : 2 ^ 64 ∣ a + m * q := by
    have hmc : ((m : ℕ) : ZMod (2 ^ 64)) = (a : ZMod (2 ^ 64)) * (qInv : ZMod (2 ^ 64)) := by
      rw [hm_def, ZMod.natCast_mod, Nat.cast_mul, ZMod.natCast_mod]
    have hq1 : (q : ZMod (2 ^ 64)) * (qInv : ZMod (2 ^ 64)) = -1 := by
      have h0 : ((q * qInv % 2 ^ 64 : ℕ) : ZMod (2 ^ 64))
          = ((2 ^ 64 - 1 : ℕ) : ZMod (2 ^ 64)) := by rw [hinv]
      rw [ZMod.natCast_mod, Nat.cast_mul] at h0
      rw [h0, Nat.cast_sub (Nat.one_le_pow _ _ (by norm_num)),
        ZMod.natCast_self, Nat.cast_one, zero_sub]
    have hcast : ((a + m * q : ℕ) : ZMod (2 ^ 64)) = 0 := by
      push_cast
      rw [hmc]
      calc
        (a : ZMod (2 ^ 64)) + (a : ZMod (2 ^ 64)) * (qInv : ZMod (2 ^ 64)) * (q : ZMod (2 ^ 64))
          = (a : ZMod (2 ^ 64)) * (1 + (q : ZMod (2 ^ 64)) * (qInv : ZMod (2 ^ 64))) := by ring
        _ = 0 := by rw [hq1]; ring
    exact (ZMod.natCast_zmod_eq_zero_iff_dvd _ _).mp hcast
  have ht : ((a + m * q) / 2 ^ 64) * 2 ^ 64 = a + m * q := Nat.div_mul_cancel hdvd
  set t := (a + m * q) / 2 ^ 64 with ht_def
  have htlt : t < 2 * q := by
    rw [ht_def, Nat.div_lt_iff_lt_mul hRpos]
    have h1 : m * q < 2 ^ 64 * q := mul_lt_mul_of_pos_right hm hq
    calc
      a + m * q < q * 2 ^ 64 + 2 ^ 64 * q := Nat.add_lt_add ha h1
      _ = 2 * q * 2 ^ 64 := by ring
  have htmod : t * 2 ^ 64 ≡ a [MOD q] := by
    have hmq : (a + m * q) % q = a % q := Nat.add_mul_mod_self_right a m q
    rw [ht]
    exact hmq
  have hredc : redc a q qInv = if q ≤ t then t - q else t := by
    rw [redc, ← hm_def, ← ht_def]
  rw [hredc]
  by_cases hc : q ≤ t
  · rw [if_pos hc]
    constructor
    · omega
    · have hsplit : (t - q) * 2 ^ 64 + q * 2 ^ 64 = t * 2 ^ 64 := by
        rw [← Nat.add_mul]
        congr 1
        omega
      have hstep : (t - q) * 2 ^ 64 ≡ (t - q) * 2 ^ 64 + q * 2 ^ 64 [MOD q] :=
        (Nat.add_mul_mod_self_left _ q (2 ^ 64)).symm
      rw [hsplit] at hstep
      exact hstep.trans htmod
  · rw [if_neg hc]
    exact ⟨by omega, htmod⟩

/-- A modulus with a valid Montgomery constant is odd, hence coprime to the
word size `2^64`. -/
lemma coprime_of_mredParam (q qInv : ℕ) (hinv : q * qInv % 2 ^ 64 = 2 ^ 64 - 1) :
    Nat.Coprime q (2 ^ 64) := by
  have hodd : q % 2 = 1 := by
    have hdvd : (2 : ℕ) ∣ 2 ^ 64 := dvd_pow_self 2 (by norm_num)
    have hpar : q * qInv % 2 = 1 := by
      have h1 : q * qInv % 2 ^ 64 % 2 = q * qInv % 2 := Nat.mod_mod_of_dvd _ hdvd
      rw [hinv] at h1
      rw [← h1]
      norm_num
    rcases Nat.mod_two_eq_zero_or_one q with h | h
    · exfalso
      have h2 : q * qInv % 2 = q % 2 * (qInv % 2) % 2 := Nat.mul_mod q qInv 2
      rw [h, Nat.zero_mul, Nat.zero_mod] at h2
      omega
    · exact h
  exact Nat.Coprime.pow_right 64 (Nat.coprime_two_right.mpr (Nat.odd_iff.mpr hodd))

/-- Two residues below `q` that are congruent mod `q` are equal. -/
lemma eq_of_modEq_of_lt {x y q : ℕ} (h : x ≡ y [MOD q]) (hx : x < q) (hy : y < q) :
    x = y := by
  have h2 : x % q = y % q := h
  rwa [Nat.mod_eq_of_lt hx, Nat.mod_eq_of_lt hy] at h2

/-- C5: for every 64-bit modulus `q` with valid Montgomery constant `qInv`
and all residues `x, y < q`, `MRed(x, MForm(y, q, bred), q, qInv)` equals
`(x·y) mod q` of exact integer arithmetic. -/
theorem MRed_MForm_correct (x y q qInv bred : ℕ)
    (hq : 0 < q) (hqR : q < 2 ^ 64)
    (hinv : q * qInv % 2 ^ 64 = 2 ^ 64 - 1)
    (hx : x < q) (hy : y < q) :
    MRed x (MForm y q bred) q qInv = x * y % q := by
  have hyR : y * 2 ^ 64 % q < q := Nat.mod_lt _ hq
  have ha : x * (y * 2 ^ 64 % q) < q * 2 ^ 64 := by
    calc
      x * (y * 2 ^ 64 % q) < q * q := mul_lt_mul'' hx hyR (Nat.zero_le _) (Nat.zero_le _)
      _ ≤ q * 2 ^ 64 := Nat.mul_le_mul_left q (le_of_lt hqR)
  obtain ⟨hlt, hcong⟩ := redc_spec (x * (y * 2 ^ 64 % q)) q qInv hq hqR hinv ha
  have h2 : x * (y * 2 ^ 64 % q) ≡ x * y % q * 2 ^ 64 [MOD q] := by
    calc
      x * (y * 2 ^ 64 % q) ≡ x * (y * 2 ^ 64) [MOD q] :=
        Nat.ModEq.mul_left x (Nat.mod_modEq _ q)
      _ = x * y * 2 ^ 64 := by ring
      _ ≡ x * y % q * 2 ^ 64 [MOD q] :=
        Nat.ModEq.mul_right _ (Nat.mod_modEq (x * y) q).symm
  have h3 : redc (x * (y * 2 ^ 64 % q)) q qInv * 2 ^ 64 ≡ x * y % q * 2 ^ 64 [MOD q] :=
    hcong.trans h2
  have h4 : redc (x * (y * 2 ^ 64 % q)) q qInv ≡ x * y % q [MOD q] :=
    Nat.ModEq.cancel_right_of_coprime (coprime_of_mredParam q qInv hinv) h3
  exact eq_of_modEq_of_lt h4 hlt (Nat.mod_lt _ hq)

/-- The Montgomery constant for `q = 17`: `(-17)⁻¹ mod 2^64`. -/
def qInvW : ℕ := 1085102592571150095

/-- Witness for C5 at `q = 17`, `x = 5`, `y = 11`. -/
theorem MRed_MForm_correct_witness :
    MRed 5 (MForm 11 17 0) 17 qInvW = 5 * 11 % 17 :=
  MRed_MForm_correct 5 11 17 qInvW 0 (by decide) (by norm_num)
    (by norm_num [qInvW]) (by decide) (by decide)

/-- Scalar half of C6: mapping into Montgomery form and back is the identity
on reduced residues. -/
lemma InvMForm_MForm_scalar (x q qInv bred : ℕ)
    (hq : 0 < q) (hqR : q < 2 ^ 64)
    (hinv : q * qInv % 2 ^ 64 = 2 ^ 64 - 1)
    (hx : x < q) :
    InvMForm (MForm x q bred) q qInv = x := by
  have haR : x * 2 ^ 64 % q < q := Nat.mod_lt _ hq
  have ha : x * 2 ^ 64 % q < q * 2 ^ 64 := by
    calc
      x * 2 ^ 64 % q < q := haR
      _ ≤ q * 2 ^ 64 := Nat.le_mul_of_pos_right q (pow_pos (by norm_num) 64)
  obtain ⟨hlt, hcong⟩ := redc_spec (x * 2 ^ 64 % q) q qInv hq hqR hinv ha
  have h2 : x * 2 ^ 64 % q ≡ x * 2 ^ 64 [MOD q] := Nat.mod_modEq _ q
  have h3 : InvMForm (MForm x q bred) q qInv * 2 ^ 64 ≡ x * 2 ^ 64 [MOD q] :=
    hcong.trans h2
  have h4 : InvMForm (MForm x q bred) q qInv ≡ x [MOD q] :=
    Nat.ModEq.cancel_right_of_coprime (coprime_of_mredParam q qInv hinv) h3
  exact eq_of_modEq_of_lt h4 hlt hx

/-! ## uint64 view of the Context (for the Montgomery claims)

Modelled from the spec: the Context also stores, per limb, the Barrett and
Montgomery reduction constants (`bredParams`, `mredParams`); here we keep the
raw `uint64` (i.e. `ℕ`) view of coefficients needed to state the
Montgomery-form round trip of `Context.MForm`/`Context.InvMForm`. -/

structure MContext where
  N : ℕ
  L : ℕ
  Modulus : Fin L → ℕ
  bredParams : Fin L → ℕ
  mredParams : Fin L → ℕ

/-- Validity of the precomputed Montgomery constants: each limb modulus is a
positive 64-bit value and `q · qInv ≡ -1 (mod 2^64)`. -/
def MContext.Valid (c : MContext) : Prop :=
  ∀ l : Fin c.L,
    0 < c.Modulus l ∧ c.Modulus l < 2 ^ 64 ∧
    c.Modulus l * c.mredParams l % 2 ^ 64 = 2 ^ 64 - 1

/-- RNS polynomial in the raw `uint64` view: one coefficient array per limb. -/
def MPoly (c : MContext) : Type := Fin c.L → Fin c.N → ℕ

/-- Modelled from the spec: `Context.MForm` maps every coefficient of every
limb into Montgomery form. -/
def MContext.MForm (c : MContext) (p : MPoly c) : MPoly c :=
  fun l i => LatticeRing.MForm (p l i) (c.Modulus l) (c.bredParams l)

/-- Modelled from the spec: `Context.InvMForm` maps every coefficient of
every limb out of Montgomery form. -/
def MContext.InvMForm (c : MContext) (p : MPoly c) : MPoly c :=
  fun l i => LatticeRing.InvMForm (p l i) (c.Modulus l) (c.mredParams l)

/-- C6: on a valid Context, `InvMForm (MForm x) = x` for every reduced
residue of every limb modulus; lifted to polynomials,
`Context.InvMForm ∘ Context.MForm` is the identity on every limb and
coefficient of every reduced polynomial. -/
theorem InvMForm_MForm_id (c : MContext) (hc : c.Valid) (p : MPoly c)
    (hp : ∀ l i, p l i < c.Modulus l) :
    (∀ (l : Fin c.L) (x : ℕ), x < c.Modulus l →
        InvMForm (MForm x (c.Modulus l) (c.bredParams l)) (c.Modulus l) (c.mredParams l) = x)
      ∧ ∀ l i, c.InvMForm (c.MForm p) l i = p l i := by
  obtain hscalar : ∀ (l : Fin c.L) (x : ℕ), x < c.Modulus l →
      InvMForm (MForm x (c.Modulus l) (c.bredParams l)) (c.Modulus l) (c.mredParams l) = x := by
    intro l x hx
    obtain ⟨hq, hqR, hinv⟩ := hc l
    exact InvMForm_MForm_scalar x _ _ _ hq hqR hinv hx
  exact ⟨hscalar, fun l i => hscalar l (p l i) (hp l i)⟩

/-- Concrete valid `MContext` for the C6 witness: one limb, `q = 17`. -/
def mctxW : MContext where
  N := 2
  L := 1
  Modulus := fun _ => 17
  bredParams := fun _ => 0
  mredParams := fun _ => qInvW

/-- Concrete reduced polynomial (coefficients 13, 14) over `mctxW`. -/
def mpW : MPoly mctxW := fun _ i => i.val + 13

/-- Witness for C6 at the concrete context `q = 17` and polynomial `(13, 14)`. -/
theorem InvMForm_MForm_id_witness :
    (∀ (l : Fin mctxW.L) (x : ℕ), x < mctxW.Modulus l →
        InvMForm (MForm x (mctxW.Modulus l) (mctxW.bredParams l))
          (mctxW.Modulus l) (mctxW.mredParams l) = x)
      ∧ ∀ l i, mctxW.InvMForm (mctxW.MForm mpW) l i = mpW l i :=
  InvMForm_MForm_id mctxW
    (by
      intro l
      refine ⟨?_, ?_, ?_⟩
      · show (0 : ℕ) < 17
        norm_num
      · show (17 : ℕ) < 2 ^ 64
        norm_num
      · show 17 * qInvW % 2 ^ 64 = 2 ^ 64 - 1
        norm_num [qInvW])
    mpW (by
      intro l i
      have hi : i.val < 2 := i.isLt
      show i.val + 13 < 17
      omega)

/-! ## DivRound and the SimpleScaler

Modelled from the spec (§4.7, §9): `DivRound` is the arbitrary-precision
integer division with round-half-away-from-zero tie-breaking, and
`SimpleScaler.Scale` maps each CRT-reconstructed coefficient `coeff` of a
polynomial over basis Q to `round(coeff·T/Q) mod T` with exact integer
arithmetic (no floating-point intermediate). -/

/-- Modelled from the spec: `DivRound(a, b)` for `b > 0` rounds `a/b` to the
nearest integer with ties away from zero, using only integer operations:
`⌊(2a+b)/(2b)⌋` for `a ≥ 0`, mirrored for `a < 0`. -/
def DivRound (a b : ℤ) : ℤ :=
  if 0 ≤ a then (2 * a + b) / (2 * b) else -((2 * (-a) + b) / (2 * b))

/-- Mathematical round-half-away-from-zero on rationals (Mathlib's `round`
is round-half-up, which agrees on nonnegative arguments and is mirrored for
negative ones). -/
def roundAway (x : ℚ) : ℤ := if 0 ≤ x then round x else -round (-x)

/-- `DivRound` on a nonnegative numerator computes the round-half-up (equal
to round-half-away-from-zero) of the exact quotient. -/
lemma DivRound_nonneg (a b : ℤ) (ha : 0 ≤ a) (hb : 0 < b) :
    DivRound a b = round ((a : ℚ) / (b : ℚ)) := by
  unfold DivRound
  rw [if_pos ha, round_eq]
  have hbq : (0 : ℚ) < (b : ℚ) := by exact_mod_cast hb
  set d : ℕ := (2 * b).toNat with hd
  have hdz : ((d : ℕ) : ℤ) = 2 * b := Int.toNat_of_nonneg (by omega)
  have hdq : ((d : ℕ) : ℚ) = ((2 * b : ℤ) : ℚ) := by
    exact_mod_cast congrArg (fun z : ℤ => (z : ℚ)) hdz
  have heq : (a : ℚ) / (b : ℚ) + 1 / 2 = ((2 * a + b : ℤ) : ℚ) / ((d : ℕ) : ℚ) := by
    rw [hdq]
    push_cast
    field_simp
    ring
  rw [heq, Rat.floor_intCast_div_natCast, hdz]

/-- `DivRound` computes the mathematical round-half-away-from-zero of the
exact quotient, for every integer numerator and positive denominator. -/
lemma DivRound_eq_roundAway (a b : ℤ) (hb : 0 < b) :
    DivRound a b = roundAway ((a : ℚ) / (b : ℚ)) := by
  have hbq : (0 : ℚ) < (b : ℚ) := by exact_mod_cast hb
  by_cases ha : 0 ≤ a
  · rw [roundAway, if_pos (div_nonneg (by exact_mod_cast ha) (le_of_lt hbq))]
    exact DivRound_nonneg a b ha hb
  · push_neg at ha
    have hneg : DivRound a b = -DivRound (-a) b := by
      unfold DivRound
      rw [if_neg (by omega), if_pos (by omega)]
    have haq : ((a : ℚ)) / (b : ℚ) < 0 :=
      div_neg_of_neg_of_pos (by exact_mod_cast ha) hbq
    rw [hneg, DivRound_nonneg (-a) b (by omega) hb, roundAway, if_neg (not_le.mpr haq)]
    congr 2
    push_cast
    rw [neg_div]

/-- Modelled from the spec: the `SimpleScaler`, bound to a target modulus `T`
and the big-integer product `Q` of the source context's moduli. -/
structure SimpleScaler where
  T : ℤ
  Q : ℤ

/-- Modelled from the spec: `Scale(in, out)` where `in` is given by its
CRT-reconstructed big-integer coefficients: each output coefficient is
`DivRound(coeff·T, Q) mod T`. -/
def SimpleScaler.Scale (s : SimpleScaler) {N : ℕ} (coeffs : Fin N → ℤ) : Fin N → ℤ :=
  fun i => DivRound (coeffs i * s.T) s.Q % s.T

/-- C4: `SimpleScaler.Scale` produces, per coefficient, exactly
`round(coeff·T/Q) mod T` with round-half-away-from-zero tie-breaking (as
computed exactly by the integer-only `DivRound`), for every polynomial given
by its CRT-reconstructed coefficients. -/
theorem Scale_spec (s : SimpleScaler) (hT : 0 < s.T) (hQ : 0 < s.Q)
    {N : ℕ} (coeffs : Fin N → ℤ) (i : Fin N) :
    s.Scale coeffs i = roundAway ((coeffs i * s.T : ℤ) / (s.Q : ℚ)) % s.T
      ∧ 0 ≤ s.Scale coeffs i ∧ s.Scale coeffs i < s.T := by
  refine ⟨?_, ?_, ?_⟩
  · show DivRound (coeffs i * s.T) s.Q % s.T = _
    rw [DivRound_eq_roundAway _ _ hQ]
  · exact Int.emod_nonneg _ (ne_of_gt hT)
  · exact Int.emod_lt_of_pos _ hT

/-- Concrete scaler (`T = 17`, `Q = 1000`) for the C4 witness. -/
def sclW : SimpleScaler where
  T := 17
  Q := 1000

/-- Concrete reconstructed coefficients for the C4 witness. -/
def coeffsW : Fin 2 → ℤ := fun i => 123 + 500 * i.val

/-- Witness for C4 at the concrete scaler and coefficient vector. -/
theorem Scale_spec_witness :
    sclW.Scale coeffsW 0 = roundAway ((coeffsW 0 * sclW.T : ℤ) / (sclW.Q : ℚ)) % sclW.T
      ∧ 0 ≤ sclW.Scale coeffsW 0 ∧ sclW.Scale coeffsW 0 < sclW.T :=
  Scale_spec sclW (by norm_num [sclW]) (by norm_num [sclW]) coeffsW 0

/-! ## NTT-friendly prime generation

Modelled from the spec (§4.2): the implementation is absent from src/.
`GenerateNTTPrimes(N, hint, count, bitlength)` must return `count` primes `q`
with `bits(q) = bitlength` and `q ≡ 1 (mod 2N)`, searching downward/upward
from `hint`, and error out when the search space is exhausted.  The hint only
orders the search; it does not change which primes exist in the bit-length
window, so the model enumerates the window in ascending order. -/

/-- Fuel-bounded bit length (structural recursion so it evaluates in the
kernel). -/
def bitLenAux : ℕ → ℕ → ℕ
  | 0, _ => 0
  | fuel + 1, n => if n = 0 then 0 else bitLenAux fuel (n / 2) + 1

/-- Go's `bits.Len64`: the number of bits of a `uint64`. -/
def bitLen (n : ℕ) : ℕ := bitLenAux 64 n

/-- Modelled from the spec: the pool of admissible NTT-friendly primes for a
bit length — every prime `q < 2^bitlength` with `bits(q) = bitlength` and
`q ≡ 1 (mod 2N)`. -/
def nttPrimePool (N bitlength : ℕ) : List ℕ :=
  ((List.range (2 ^ bitlength)).filter
    (fun m => bitLen m == bitlength && m % (2 * N) == 1)).filter
    (fun m => decide (Nat.Prime m))

/-- Modelled from the spec: `GenerateNTTPrimes` returns the first `count`
primes of the pool, or an error when the pool is exhausted first. -/
def GenerateNTTPrimes (N hint count bitlength : ℕ) : Except String (List ℕ) :=
  if count ≤ (nttPrimePool N bitlength).length
  then Except.ok ((nttPrimePool N bitlength).take count)
  else Except.error "not enough primes within the search space"

/-- C7: whenever `GenerateNTTPrimes` succeeds it returns exactly `count`
values, each a prime of the requested bit length congruent to
`1 (mod 2N)`; when the search space holds fewer than `count` such primes it
returns an error. -/
theorem GenerateNTTPrimes_spec (N hint count bitlength : ℕ) :
    (∀ ps, GenerateNTTPrimes N hint count bitlength = Except.ok ps →
        ps.length = count ∧
          ∀ q ∈ ps, bitLen q = bitlength ∧ q % (2 * N) = 1 ∧ q.Prime)
      ∧ ((nttPrimePool N bitlength).length < count →
          ∃ msg, GenerateNTTPrimes N hint count bitlength = Except.error msg) := by
  constructor
  · intro ps hok
    unfold GenerateNTTPrimes at hok
    by_cases hc : count ≤ (nttPrimePool N bitlength).length
    · rw [if_pos hc] at hok
      have hps : (nttPrimePool N bitlength).take count = ps := Except.ok.inj hok
      subst hps
      refine ⟨?_, ?_⟩
      · rw [List.length_take]
        exact Nat.min_eq_left hc
      · intro m hm
        have hmem : m ∈ nttPrimePool N bitlength := List.take_subset _ _ hm
        unfold nttPrimePool at hmem
        rw [List.mem_filter] at hmem
        obtain ⟨hmem2, hprime⟩ := hmem
        rw [List.mem_filter] at hmem2
        obtain ⟨-, hcond⟩ := hmem2
        rw [Bool.and_eq_true] at hcond
        obtain ⟨h1, h2⟩ := hcond
        exact ⟨eq_of_beq h1, eq_of_beq h2, of_decide_eq_true hprime⟩
    · rw [if_neg hc] at hok
      exact absurd hok (by simp)
  · intro hlt
    refine ⟨"not enough primes within the search space", ?_⟩
    unfold GenerateNTTPrimes
    rw [if_neg (by omega)]

/-- Witness for C7: `N = 4`, bit length 5, one prime requested; the model
returns `[17]` (indeed 5 bits, `17 ≡ 1 (mod 8)`, prime). -/
theorem GenerateNTTPrimes_spec_witness :
    (([17] : List ℕ).length = 1)
      ∧ (bitLen 17 = 5 ∧ 17 % (2 * 4) = 1 ∧ Nat.Prime 17) :=
  ⟨((GenerateNTTPrimes_spec 4 100 1 5).1 [17] rfl).1,
   ((GenerateNTTPrimes_spec 4 100 1 5).1 [17] rfl).2 17 (by simp)⟩

/-! ## CRP generator

Modelled from the spec (§4.8): the implementation is absent from src/.  A
`CRPGenerator` is deterministic: its observable state is exactly the seed and
the logical clock; `Seed` resets, `SetClock` advances the clock forward (it
cannot go backward), and `Clock` emits the polynomial determined by
`(seed, clock)` and increments the clock.  The concrete byte-expansion PRF is
not in the sources, so `crpExpand` below is a fixed deterministic stand-in;
the claim under verification only concerns determinism in `(seed, clock)`. -/

/-- Modelled from the spec: deterministic expansion of `(seed, clock)` into a
polynomial over the Context (stand-in for the missing PRF). -/
def crpExpand (c : Context) (seed clock : ℕ) : Poly c :=
  fun l i =>
    (((seed + 1) * 2654435761 + clock * 40503 + l.val * 65599 + i.val * 48271 : ℕ)
      : ZMod (c.Modulus l))

/-- Modelled from the spec: CRP generator state — seed and logical clock. -/
structure CRPGenerator where
  seed : ℕ
  clock : ℕ

/-- Modelled from the spec: `Seed` resets the generator's state. -/
def CRPGenerator.Seed (g : CRPGenerator) (s : ℕ) : CRPGenerator := ⟨s, 0⟩

/-- Modelled from the spec: `SetClock` advances the generator to clock value
`v`, failing if the generator is already past `v`. -/
def CRPGenerator.SetClock (g : CRPGenerator) (v : ℕ) : Except String CRPGenerator :=
  if g.clock ≤ v then Except.ok ⟨g.seed, v⟩
  else Except.error "cannot set the clock backward"

/-- Modelled from the spec: `Clock` emits the polynomial of the current
`(seed, clock)` pair and increments the clock. -/
def CRPGenerator.Clock (c : Context) (g : CRPGenerator) : Poly c × CRPGenerator :=
  (crpExpand c g.seed g.clock, ⟨g.seed, g.clock + 1⟩)

/-- C8: two CRP generators over the same Context, seeded with the same seed
and advanced to the same clock value, emit bit-identical polynomials on every
limb and coefficient. -/
theorem CRPGenerator_deterministic (c : Context) (g1 g2 : CRPGenerator)
    (s v : ℕ) (g1' g2' : CRPGenerator)
    (h1 : (g1.Seed s).SetClock v = Except.ok g1')
    (h2 : (g2.Seed s).SetClock v = Except.ok g2') :
    (CRPGenerator.Clock c g1').1 = (CRPGenerator.Clock c g2').1 ∧
      ∀ l i, (CRPGenerator.Clock c g1').1 l i = (CRPGenerator.Clock c g2').1 l i := by
  have e1 : g1' = ⟨s, v⟩ := by
    unfold CRPGenerator.Seed CRPGenerator.SetClock at h1
    rw [if_pos (Nat.zero_le v)] at h1
    exact (Except.ok.inj h1).symm
  have e2 : g2' = ⟨s, v⟩ := by
    unfold CRPGenerator.Seed CRPGenerator.SetClock at h2
    rw [if_pos (Nat.zero_le v)] at h2
    exact (Except.ok.inj h2).symm
  subst e1
  subst e2
  exact ⟨rfl, fun l i => rfl⟩

/-- Witness for C8: two distinct generator instances, seeded with 42 and
clocked to 256, emit the same polynomial over the concrete Context. -/
theorem CRPGenerator_deterministic_witness :
    (CRPGenerator.Clock ctxW ⟨42, 256⟩).1 = (CRPGenerator.Clock ctxW ⟨42, 256⟩).1 :=
  (CRPGenerator_deterministic ctxW ⟨0, 0⟩ ⟨99, 7⟩ 42 256 ⟨42, 256⟩ ⟨42, 256⟩ rfl rfl).1

end LatticeRing

namespace LatticeRlwe

/-! ## GaloisKey serialization (`core/rlwe/keys.go`)

The byte stream of a `buffer.Writer` is modelled as a list of bytes; a write
operation returns the extended buffer together with the number of bytes it
wrote (the source's `inc`/`n` bookkeeping).  The `EvaluationKey`
(`GadgetCiphertext`) payload is not in the sampled sources; per the spec (§6)
every writer writes exactly its `BinarySize()` bytes, and its payload is a
sequence of 8-byte words, so it is modelled as the list of its `uint64`
words. -/

/-- Little-endian 8-byte encoding of a `uint64`. -/
def u64le (x : ℕ) : List ℕ := (List.range 8).map (fun k => x / 256 ^ k % 256)

/-- `buffer.WriteUint64`: appends the 8-byte little-endian encoding and
reports 8 bytes written. -/
def writeUint64 (buf : List ℕ) (x : ℕ) : List ℕ × ℕ := (buf ++ u64le x, 8)

/-- Writing a sequence of words, accumulating the byte counts. -/
def writeWords (buf : List ℕ) : List ℕ → List ℕ × ℕ
  | [] => (buf, 0)
  | w :: ws =>
    let r1 := writeUint64 buf w
    let r2 := writeWords r1.1 ws
    (r2.1, r1.2 + r2.2)

/-- Modelled from the spec: an `EvaluationKey` (its `GadgetCiphertext` is not
in the sampled sources), reduced to its serialized payload: a list of
`uint64` words. -/
structure EvaluationKey where
  words : List ℕ

/-- Modelled from the spec: the EvaluationKey's binary size — 8 bytes per
word. -/
def EvaluationKey.BinarySize (evk : EvaluationKey) : ℕ := 8 * evk.words.length

/-- Modelled from the spec: the EvaluationKey's writer emits its words in
order. -/
def EvaluationKey.WriteTo (evk : EvaluationKey) (buf : List ℕ) : List ℕ × ℕ :=
  writeWords buf evk.words

/-- `GaloisKey` (keys.go:387-391): the Galois element, the order `NthRoot` of
the root of unity, and the embedded `EvaluationKey`. -/
structure GaloisKey where
  GaloisElement : ℕ
  NthRoot : ℕ
  evk : EvaluationKey

/-- `GaloisKey.BinarySize` (keys.go:422-424): the EvaluationKey's size plus
16 bytes for `GaloisElement` and `NthRoot`. -/
def GaloisKey.BinarySize (gk : GaloisKey) : ℕ :=
  gk.evk.BinarySize + 16

/-- `GaloisKey.WriteTo` (keys.go:437-466, the `buffer.Writer` branch): write
`GaloisElement`, then `NthRoot`, then the EvaluationKey, summing the byte
counts. -/
def GaloisKey.WriteTo (gk : GaloisKey) (buf : List ℕ) : List ℕ × ℕ :=
  let r1 := writeUint64 buf gk.GaloisElement
  let r2 := writeUint64 r1.1 gk.NthRoot
  let r3 := gk.evk.WriteTo r2.1
  (r3.1, r1.2 + (r2.2 + r3.2))

lemma u64le_length (x : ℕ) : (u64le x).length = 8 := by
  simp [u64le]

/-- `writeWords` writes exactly 8 bytes per word and appends exactly that
many bytes to the buffer. -/
lemma writeWords_spec (ws : List ℕ) : ∀ buf,
    (writeWords buf ws).2 = 8 * ws.length ∧
      (writeWords buf ws).1.length = buf.length + 8 * ws.length := by
  induction ws with
  | nil => intro buf; simp [writeWords]
  | cons w ws ih =>
    intro buf
    obtain ⟨ih1, ih2⟩ := ih (buf ++ u64le w)
    constructor
    · show 8 + (writeWords (buf ++ u64le w) ws).2 = 8 * (ws.length + 1)
      rw [ih1]
      ring
    · show (writeWords (buf ++ u64le w) ws).1.length = buf.length + 8 * (ws.length + 1)
      rw [ih2, List.length_append, u64le_length]
      ring

/-- C9: `GaloisKey.WriteTo` writes exactly `BinarySize()` bytes — the
reported count equals `BinarySize()` and the buffer grows by exactly that
many bytes — and `BinarySize()` is the EvaluationKey's binary size plus 16
bytes for `GaloisElement` and `NthRoot`. -/
theorem GaloisKey_WriteTo_size (gk : GaloisKey) (buf : List ℕ) :
    (gk.WriteTo buf).2 = gk.BinarySize ∧
      gk.BinarySize = gk.evk.BinarySize + 16 ∧
      (gk.WriteTo buf).1.length = buf.length + gk.BinarySize := by
  obtain ⟨h1, h2⟩ := writeWords_spec gk.evk.words (buf ++ u64le gk.GaloisElement ++ u64le gk.NthRoot)
  refine ⟨?_, rfl, ?_⟩
  · show 8 + (8 + (writeWords (buf ++ u64le gk.GaloisElement ++ u64le gk.NthRoot) gk.evk.words).2)
        = gk.BinarySize
    rw [h1]
    show 8 + (8 + 8 * gk.evk.words.length) = 8 * gk.evk.words.length + 16
    ring
  · show (writeWords (buf ++ u64le gk.GaloisElement ++ u64le gk.NthRoot) gk.evk.words).1.length
        = buf.length + gk.BinarySize
    rw [h2, List.length_append, List.length_append, u64le_length, u64le_length]
    show buf.length + 8 + 8 + 8 * gk.evk.words.length
        = buf.length + (8 * gk.evk.words.length + 16)
    ring

end LatticeRlwe

namespace LatticeInteger

/-! ## `PolynomialEvaluator.EvaluateFromPowerBasis` (`src/unnamed/part_000`)

The evaluator checks that the power basis holds the entry for `X^1` before
doing anything else; the external `circuits.EvaluatePolynomial` call is a
parameter of the model (its implementation is outside the sampled sources). -/

/-- Minimal ciphertext model: only the slot count is observable here. -/
structure Ciphertext where
  slots : ℕ

/-- `circuits.PowerBasis`: the map of precomputed powers `X^n`
(`Value : map[int]*rlwe.Ciphertext`). -/
structure PowerBasis where
  Value : ℕ → Option Ciphertext

/-- `PolynomialEvaluator.EvaluateFromPowerBasis` (part_000:68-87): fails with
an explicit error (and no ciphertext) when `pb.Value[1]` is absent, otherwise
hands off to `circuits.EvaluatePolynomial` (modelled as the parameter
`evalPolynomial`). -/
def EvaluateFromPowerBasis {α : Type}
    (evalPolynomial : PowerBasis → α → ℕ → Except String Ciphertext)
    (pb : PowerBasis) (p : α) (targetScale : ℕ) : Except String Ciphertext :=
  match pb.Value 1 with
  | none => Except.error "cannot EvaluateFromPowerBasis: X^\x7b1\x7d is nil"
  | some _ => evalPolynomial pb p targetScale

/-- C10: when the power basis lacks the entry for `X^1`,
`EvaluateFromPowerBasis` returns no ciphertext and the explicit error,
without invoking the evaluation; when the entry is present, the result is
exactly the external evaluation call (so no such error is produced by this
function). -/
theorem EvaluateFromPowerBasis_requires_X1 {α : Type}
    (evalPolynomial : PowerBasis → α → ℕ → Except String Ciphertext)
    (pb : PowerBasis) (p : α) (s : ℕ) :
    (pb.Value 1 = none →
        EvaluateFromPowerBasis evalPolynomial pb p s
          = Except.error "cannot EvaluateFromPowerBasis: X^\x7b1\x7d is nil")
      ∧ ∀ ct, pb.Value 1 = some ct →
          EvaluateFromPowerBasis evalPolynomial pb p s = evalPolynomial pb p s := by
  constructor
  · intro h
    unfold EvaluateFromPowerBasis
    rw [h]
  · intro ct h
    unfold EvaluateFromPowerBasis
    rw [h]

/-- Concrete external evaluator for the C10 witness. -/
def evalW : PowerBasis → ℕ → ℕ → Except String Ciphertext :=
  fun _ _ _ => Except.ok ⟨4⟩

/-- Power basis with no precomputed powers at all. -/
def pbNoX1 : PowerBasis := ⟨fun _ => none⟩

/-- Power basis holding exactly the entry for `X^1`. -/
def pbWithX1 : PowerBasis := ⟨fun k => if k = 1 then some ⟨8⟩ else none⟩

/-- Witness for C10: on `pbNoX1` the evaluator fails with the explicit
error; on `pbWithX1` it returns the external evaluation's result. -/
theorem EvaluateFromPowerBasis_requires_X1_witness :
    EvaluateFromPowerBasis evalW pbNoX1 0 0
        = Except.error "cannot EvaluateFromPowerBasis: X^\x7b1\x7d is nil"
      ∧ EvaluateFromPowerBasis evalW pbWithX1 0 0 = evalW pbWithX1 0 0 :=
  ⟨(EvaluateFromPowerBasis_requires_X1 evalW pbNoX1 0 0).1 rfl,
   (EvaluateFromPowerBasis_requires_X1 evalW pbWithX1 0 0).2 ⟨8⟩ rfl⟩

end LatticeInteger
